import Mathlib

/-
Verification of `ngfw::sdk::string::SmallString<N>` (src/SmallString.hpp).

`SmallString<N>` is a thin wrapper around `boost::container::small_vector<char, N>`
(its single member `m_data`).  The shallow embedding below models the observable
state of that container:

  * `content` — the logical byte sequence `[data(), data() + size())`;
  * `cap`     — the value returned by `capacity()`.  The inline (internal)
                storage of `small_vector<char, N>` is modelled as holding
                exactly `N` bytes, so `cap = N` whenever storage is inline;
  * `heap`    — the current storage mode: `false` = inline buffer,
                `true` = separately heap-allocated buffer;
  * `allocs`, `promotions` — ghost instrumentation counters, not data of the
                C++ object and never read by any operation: `allocs` counts
                heap-buffer allocations performed so far, `promotions` counts
                transitions from inline to heap storage.

Growth follows `boost::container::vector`: when a required size exceeds the
current capacity a new buffer of a geometrically expanded size (never smaller
than the requested size) is allocated; `reserve` allocates the exact requested
capacity; `shrink_to_fit` reallocates down to `size()` bytes, moving back to
the inline buffer when the size fits in it.  The theorems below depend only on
the facts that the grown capacity is at least the requested size and strictly
larger than the old capacity; the precise geometric factor is irrelevant.
-/

namespace SmallStr

/-- Observable state of a `SmallString<N>` (i.e. of its member
`m_data : boost::container::small_vector<char, N>`), plus ghost counters. -/
structure SmallString (n : Nat) where
  content : List Char
  cap : Nat
  heap : Bool
  allocs : Nat
  promotions : Nat
deriving DecidableEq, Repr

/-- Geometric capacity growth of `boost::container::vector`: at least the
requested size, and a constant-factor expansion of the old capacity. -/
def grow (cap needed : Nat) : Nat := max needed (cap + cap / 2)

/-- `SmallString()` — default constructor: empty, inline storage. -/
def mkEmpty (n : Nat) : SmallString n :=
  ⟨[], n, false, 0, 0⟩

/-- `SmallString(std::string_view sv)` — constructs `m_data` from the range
`[sv.begin(), sv.end())`: inline when the length fits in `N`, otherwise a
single heap allocation of exactly the needed size. -/
def ofStringView (n : Nat) (sv : List Char) : SmallString n :=
  if sv.length ≤ n then ⟨sv, n, false, 0, 0⟩
  else ⟨sv, sv.length, true, 1, 1⟩

/-- `operator std::string_view() const` — the view `{m_data.data(), m_data.size()}`,
i.e. exactly the logical byte sequence. -/
def toStringView {n : Nat} (s : SmallString n) : List Char := s.content

/-- `size()` — `m_data.size()`. -/
def size {n : Nat} (s : SmallString n) : Nat := s.content.length

/-- `capacity()` — `m_data.capacity()`. -/
def capacity {n : Nat} (s : SmallString n) : Nat := s.cap

/-- Allocate a fresh (necessarily heap) buffer of capacity `newCap`.
Callers only invoke this with `newCap` greater than the current capacity,
hence greater than `n`.  Bumps the ghost counters. -/
def bumpTo {n : Nat} (s : SmallString n) (newCap : Nat) : SmallString n :=
  { s with cap := newCap, heap := true, allocs := s.allocs + 1,
           promotions := s.promotions + (if s.heap then 0 else 1) }

/-- Ensure capacity for `needed` bytes: no-op when it already fits, otherwise
allocate a geometrically grown buffer (the reallocation path every growing
`small_vector` mutation takes). -/
def ensure {n : Nat} (s : SmallString n) (needed : Nat) : SmallString n :=
  if needed ≤ s.cap then s else bumpTo s (grow s.cap needed)

/-- Error surface of `SmallString`: `at` throws `std::out_of_range("at")`.
The payload is the `what()` message the exception is constructed with. -/
inductive SSError where
  | outOfRange (msg : String)
deriving DecidableEq, Repr

/-- `at(pos)` — `if (size() <= pos) throw std::out_of_range("at"); return m_data[pos];`. -/
def atIdx {n : Nat} (s : SmallString n) (pos : Nat) : Except SSError Char :=
  if size s ≤ pos then Except.error (SSError.outOfRange "at")
  else Except.ok (s.content.getD pos (Char.ofNat 0))

/-- `operator=(std::string_view sv)` — `m_data = {sv.begin(), sv.end()}`:
a temporary container is range-constructed and move-assigned.  When the
length exceeds `N` the temporary's exact-size heap buffer is stolen; when it
fits inline the bytes are moved element-wise into the existing storage. -/
def op_assign {n : Nat} (s : SmallString n) (sv : List Char) : SmallString n :=
  if sv.length ≤ n then { s with content := sv }
  else { s with content := sv, cap := sv.length, heap := true,
                allocs := s.allocs + 1,
                promotions := s.promotions + (if s.heap then 0 else 1) }

/-- `operator==(SmallString, SmallString)` — compares the two
`std::string_view` conversions, i.e. the logical byte sequences. -/
def beqSS {n : Nat} (s1 s2 : SmallString n) : Bool :=
  toStringView s1 == toStringView s2

/-- `operator==(SmallString, std::string_view)` — view comparison. -/
def beqSV {n : Nat} (s : SmallString n) (sv : List Char) : Bool :=
  toStringView s == sv

/-- `operator==(std::string_view, SmallString)` — view comparison. -/
def beqVS {n : Nat} (sv : List Char) (s : SmallString n) : Bool :=
  toStringView s == sv

/-- `operator!=` — negation of `operator==`. -/
def bneSS {n : Nat} (s1 s2 : SmallString n) : Bool := !(beqSS s1 s2)

/-- `std::hash<std::string_view>` is implementation-defined; it is modelled as
a concrete (FNV-1a style, 64-bit) function of the byte sequence alone, which
is all `std::hash<SmallString<N>>` relies on. -/
def hashBytes (l : List Char) : Nat :=
  l.foldl (fun h c => ((h ^^^ c.toNat) * 1099511628211) % (2 ^ 64))
    14695981039346656037

/-- `std::hash<SmallString<N>>::operator()` — hashes the `std::string_view`
conversion, i.e. only the logical byte content. -/
def hashSS {n : Nat} (s : SmallString n) : Nat := hashBytes (toStringView s)

/-- `insert(pos, first, last)` — `m_data.insert(pos, begin, end)`: grows
storage if needed, then splices the new bytes in before position `pos`. -/
def insertAt {n : Nat} (s : SmallString n) (pos : Nat) (str : List Char) :
    SmallString n :=
  let t := ensure s (size s + str.length)
  { t with content := t.content.take pos ++ str ++ t.content.drop pos }

/-- `append(str)` — `m_data.insert(m_data.begin() + old_size, str.begin(), str.end())`:
an insert at the end of the container. -/
def append {n : Nat} (s : SmallString n) (str : List Char) : SmallString n :=
  insertAt s (size s) str

/-- `operator+=(std::string_view sv)` — `append(sv); return *this;`. -/
def op_pluseq {n : Nat} (s : SmallString n) (sv : List Char) : SmallString n :=
  append s sv

/-- `push_back(c)` — `m_data.push_back(c)`. -/
def push_back {n : Nat} (s : SmallString n) (c : Char) : SmallString n :=
  let t := ensure s (size s + 1)
  { t with content := t.content ++ [c] }

/-- `pop_back()` — `m_data.pop_back()` (on an empty container this is UB in
C++; the model totalizes it as a no-op, which no claim relies on). -/
def pop_back {n : Nat} (s : SmallString n) : SmallString n :=
  { s with content := s.content.dropLast }

/-- `clear()` — `m_data.clear()`: sets the size to zero, keeps the storage. -/
def clear {n : Nat} (s : SmallString n) : SmallString n :=
  { s with content := [] }

/-- `resize(n, c)` — `m_data.resize(n, c)`: truncate when shrinking, otherwise
grow storage if needed and append copies of the fill byte. -/
def resize {n : Nat} (s : SmallString n) (k : Nat) (c : Char) : SmallString n :=
  if k ≤ size s then { s with content := s.content.take k }
  else
    let t := ensure s k
    { t with content := t.content ++ List.replicate (k - size s) c }

/-- `resize(n)` — `resize(n, char(0))`. -/
def resizeZ {n : Nat} (s : SmallString n) (k : Nat) : SmallString n :=
  resize s k (Char.ofNat 0)

/-- `reserve(n)` — `m_data.reserve(n)`: no-op when the capacity already
suffices, otherwise allocates exactly the requested capacity. -/
def reserve {n : Nat} (s : SmallString n) (k : Nat) : SmallString n :=
  if k ≤ s.cap then s else bumpTo s k

/-- `shrink_to_fit()` — `m_data.shrink_to_fit()`: when the size fits the
inline buffer, move back inline (freeing any heap buffer, allocating
nothing); otherwise reallocate the heap buffer down to exactly `size()`
bytes (a no-op when the capacity is already exact). -/
def shrink_to_fit {n : Nat} (s : SmallString n) : SmallString n :=
  if size s ≤ n then { s with cap := n, heap := false }
  else if s.cap = size s then s
  else { s with cap := size s, allocs := s.allocs + 1 }

/-- The first `k` bytes of `junk` padded (with zero bytes) to length `k`:
used to model the unspecified values of default-initialized bytes.  The
theorems quantify over `junk`, so no fixed value is assumed. -/
def padTake (junk : List Char) (k : Nat) : List Char :=
  (junk ++ List.replicate k (Char.ofNat 0)).take k

/-- `m_data.resize(k, boost::container::default_init)` — like `resize` but the
newly exposed bytes are uninitialized; their unspecified values are drawn
from the parameter `junk`. -/
def resizeU {n : Nat} (s : SmallString n) (k : Nat) (junk : List Char) :
    SmallString n :=
  if k ≤ size s then { s with content := s.content.take k }
  else
    let t := ensure s k
    { t with content := t.content ++ padTake junk (k - size s) }

/-- In-place overwrite of a buffer through its raw pointer: the bytes produced
by the callback replace the prefix of the buffer, and the buffer's extent
cannot change (a faithful callback writes exactly `orig.length` bytes, in
which case this is just `newBytes`). -/
def writeBack (orig newBytes : List Char) : List Char :=
  (newBytes ++ orig.drop newBytes.length).take orig.length

/-- Replace the bytes of the container's buffer in place (what a caller does
by writing through the `data()` pointer): storage is untouched. -/
def withContent {n : Nat} (s : SmallString n) (c : List Char) : SmallString n :=
  { s with content := c }

/-- `resize_and_overwrite(size, op)` —
`m_data.resize(size, default_init); m_data.resize(op(m_data.data(), size), default_init);`.
The callback `f` receives the raw buffer (as the byte list it points to) and
`size`, and returns the final length together with the bytes it wrote into
the buffer through the raw pointer. -/
def resize_and_overwrite {n : Nat} (s : SmallString n) (t : Nat)
    (junk : List Char) (f : List Char → Nat → Nat × List Char) :
    SmallString n :=
  let s1 := resizeU s t junk
  let r := (f s1.content t).1
  resizeU (withContent s1 (writeBack s1.content (f s1.content t).2)) r junk

/-- One public mutating operation of `SmallString<N>`, for reasoning about
arbitrary operation sequences. -/
inductive Op (n : Nat) where
  | pushB (c : Char)
  | app (str : List Char)
  | ins (pos : Nat) (str : List Char)
  | popB
  | clr
  | rsz (k : Nat) (c : Char)
  | rszZ (k : Nat)
  | rsv (k : Nat)
  | shr
  | asg (str : List Char)
  | rao (t : Nat) (junk : List Char) (f : List Char → Nat → Nat × List Char)

/-- Apply one operation to a state. -/
def step {n : Nat} (op : Op n) (s : SmallString n) : SmallString n :=
  match op with
  | .pushB c => push_back s c
  | .app str => append s str
  | .ins pos str => insertAt s pos str
  | .popB => pop_back s
  | .clr => clear s
  | .rsz k c => resize s k c
  | .rszZ k => resizeZ s k
  | .rsv k => reserve s k
  | .shr => shrink_to_fit s
  | .asg str => op_assign s str
  | .rao t junk f => resize_and_overwrite s t junk f

/-- Run a sequence of operations left to right. -/
def runOps {n : Nat} (ops : List (Op n)) (s : SmallString n) : SmallString n :=
  ops.foldl (fun acc op => step op acc) s

/-- The storage size an operation requires of the container in state `s`:
the largest number of bytes the container must be able to hold while the
operation executes. -/
def demand {n : Nat} (op : Op n) (s : SmallString n) : Nat :=
  match op with
  | .pushB _ => size s + 1
  | .app str => size s + str.length
  | .ins _ str => size s + str.length
  | .popB => 0
  | .clr => 0
  | .rsz k _ => k
  | .rszZ k => k
  | .rsv k => k
  | .shr => 0
  | .asg str => str.length
  | .rao t junk f => max t ((f (resizeU s t junk).content t).1)

/-- Every operation of the sequence, executed from state `s`, has demand at
most `n` (the inline capacity). -/
def okOps {n : Nat} (ops : List (Op n)) (s : SmallString n) : Bool :=
  match ops with
  | [] => true
  | op :: rest => decide (demand op s ≤ n) && okOps rest (step op s)

/-- Well-formedness: invariants of every reachable `small_vector<char, n>`
state — the size fits the capacity, the capacity is never below the inline
capacity `n`, and storage is heap-allocated exactly when the capacity
exceeds `n`. -/
def WF {n : Nat} (s : SmallString n) : Prop :=
  size s ≤ s.cap ∧ n ≤ s.cap ∧ (s.heap = true ↔ n < s.cap)

instance {n : Nat} (s : SmallString n) : Decidable (WF s) := by
  unfold WF
  exact inferInstance

theorem ensure_content {n : Nat} (s : SmallString n) (k : Nat) :
    (ensure s k).content = s.content := by
  unfold ensure bumpTo
  split <;> rfl

theorem cap_le_ensure {n : Nat} (s : SmallString n) (k : Nat) :
    s.cap ≤ (ensure s k).cap := by
  unfold ensure bumpTo grow
  split
  · exact Nat.le_refl _
  · show s.cap ≤ max k (s.cap + s.cap / 2)
    omega

theorem le_ensure_cap {n : Nat} (s : SmallString n) (k : Nat) :
    k ≤ (ensure s k).cap := by
  unfold ensure bumpTo grow
  split
  · assumption
  · show k ≤ max k (s.cap + s.cap / 2)
    omega

theorem ensure_of_le {n : Nat} (s : SmallString n) (k : Nat) (h : k ≤ s.cap) :
    ensure s k = s := by
  unfold ensure
  simp [h]

theorem ensure_heap_iff {n : Nat} (s : SmallString n) (k : Nat)
    (h1 : n ≤ s.cap) (h2 : s.heap = true ↔ n < s.cap) :
    (ensure s k).heap = true ↔ n < (ensure s k).cap := by
  unfold ensure bumpTo grow
  split
  · exact h2
  · show true = true ↔ n < max k (s.cap + s.cap / 2)
    simp only [true_iff]
    omega

theorem ensure_heap_of_heap {n : Nat} (s : SmallString n) (k : Nat)
    (h : s.heap = true) :
    (ensure s k).heap = true ∧ (ensure s k).promotions = s.promotions := by
  unfold ensure bumpTo
  split
  · exact ⟨h, rfl⟩
  · exact ⟨rfl, by simp [h]⟩

theorem padTake_length (junk : List Char) (k : Nat) :
    (padTake junk k).length = k := by
  unfold padTake
  simp

theorem writeBack_length (orig newBytes : List Char) :
    (writeBack orig newBytes).length = orig.length := by
  unfold writeBack
  simp
  omega

theorem writeBack_of_length (orig newBytes : List Char)
    (h : newBytes.length = orig.length) :
    writeBack orig newBytes = newBytes := by
  unfold writeBack
  rw [h, List.drop_length, List.append_nil, ← h, List.take_length]

theorem resizeU_size {n : Nat} (s : SmallString n) (k : Nat) (junk : List Char) :
    size (resizeU s k junk) = k := by
  unfold resizeU
  split
  next h =>
    simp only [size] at h ⊢
    simp
    omega
  next h =>
    simp only [size] at h ⊢
    simp [ensure_content, padTake_length]
    omega

theorem resizeU_cap_le {n : Nat} (s : SmallString n) (k : Nat) (junk : List Char) :
    s.cap ≤ (resizeU s k junk).cap := by
  unfold resizeU
  split
  · exact Nat.le_refl _
  · exact cap_le_ensure s k

theorem le_resizeU_cap {n : Nat} (s : SmallString n) (k : Nat) (junk : List Char)
    (h : size s ≤ s.cap) :
    k ≤ (resizeU s k junk).cap := by
  unfold resizeU
  split
  next hk =>
    show k ≤ s.cap
    omega
  next hk => exact le_ensure_cap s k

theorem resizeU_of_le {n : Nat} (s : SmallString n) (k : Nat) (junk : List Char)
    (h : k ≤ s.cap) :
    (resizeU s k junk).cap = s.cap ∧ (resizeU s k junk).heap = s.heap ∧
      (resizeU s k junk).allocs = s.allocs ∧
      (resizeU s k junk).promotions = s.promotions := by
  unfold resizeU
  split
  · exact ⟨rfl, rfl, rfl, rfl⟩
  · rw [ensure_of_le s k h]
    exact ⟨rfl, rfl, rfl, rfl⟩

theorem resizeU_content_of_le {n : Nat} (s : SmallString n) (k : Nat)
    (junk : List Char) (h : k ≤ size s) :
    (resizeU s k junk).content = s.content.take k := by
  unfold resizeU
  rw [if_pos h]

theorem resizeU_heap_of_heap {n : Nat} (s : SmallString n) (k : Nat)
    (junk : List Char) (h : s.heap = true) :
    (resizeU s k junk).heap = true ∧
      (resizeU s k junk).promotions = s.promotions := by
  unfold resizeU
  split
  · exact ⟨h, rfl⟩
  · exact ensure_heap_of_heap s k h

theorem wf_resizeU {n : Nat} (s : SmallString n) (k : Nat) (junk : List Char)
    (h : WF s) :
    WF (resizeU s k junk) := by
  obtain ⟨h1, h2, h3⟩ := h
  refine ⟨?_, ?_, ?_⟩
  · rw [resizeU_size]
    exact le_resizeU_cap s k junk h1
  · exact Nat.le_trans h2 (resizeU_cap_le s k junk)
  · unfold resizeU
    split
    · exact h3
    · exact ensure_heap_iff s k h2 h3

theorem wf_mkEmpty (n : Nat) : WF (mkEmpty n) := by
  refine ⟨?_, ?_, ?_⟩ <;> simp [mkEmpty, size]

theorem wf_ofStringView (n : Nat) (sv : List Char) : WF (ofStringView n sv) := by
  unfold ofStringView
  split
  next hk =>
    refine ⟨hk, Nat.le_refl n, ?_⟩
    simp
  next hk =>
    refine ⟨Nat.le_refl _, by show n ≤ sv.length; omega, ?_⟩
    simp only [true_iff]
    omega

theorem wf_insertAt {n : Nat} (s : SmallString n) (pos : Nat) (str : List Char)
    (h : WF s) : WF (insertAt s pos str) := by
  obtain ⟨h1, h2, h3⟩ := h
  have hc := le_ensure_cap s (size s + str.length)
  have hcc := cap_le_ensure s (size s + str.length)
  refine ⟨?_, Nat.le_trans h2 hcc, ensure_heap_iff s _ h2 h3⟩
  simp only [insertAt, size] at hc ⊢
  simp [ensure_content]
  omega

theorem wf_push_back {n : Nat} (s : SmallString n) (c : Char) (h : WF s) :
    WF (push_back s c) := by
  obtain ⟨h1, h2, h3⟩ := h
  have hc := le_ensure_cap s (size s + 1)
  have hcc := cap_le_ensure s (size s + 1)
  refine ⟨?_, Nat.le_trans h2 hcc, ensure_heap_iff s _ h2 h3⟩
  simp only [push_back, size] at hc ⊢
  simp [ensure_content]
  omega

theorem wf_pop_back {n : Nat} (s : SmallString n) (h : WF s) :
    WF (pop_back s) := by
  obtain ⟨h1, h2, h3⟩ := h
  refine ⟨?_, h2, h3⟩
  simp only [pop_back, size] at h1 ⊢
  simp
  omega

theorem wf_clear {n : Nat} (s : SmallString n) (h : WF s) : WF (clear s) := by
  obtain ⟨h1, h2, h3⟩ := h
  exact ⟨Nat.zero_le _, h2, h3⟩

theorem wf_resize {n : Nat} (s : SmallString n) (k : Nat) (c : Char) (h : WF s) :
    WF (resize s k c) := by
  obtain ⟨h1, h2, h3⟩ := h
  unfold resize
  split
  next hk =>
    refine ⟨?_, h2, h3⟩
    simp only [size] at h1 hk ⊢
    simp
    omega
  next hk =>
    have hc := le_ensure_cap s k
    refine ⟨?_, Nat.le_trans h2 (cap_le_ensure s k), ensure_heap_iff s k h2 h3⟩
    simp only [size] at hk hc ⊢
    simp [ensure_content]
    omega

theorem wf_reserve {n : Nat} (s : SmallString n) (k : Nat) (h : WF s) :
    WF (reserve s k) := by
  obtain ⟨h1, h2, h3⟩ := h
  unfold reserve bumpTo
  split
  next => exact ⟨h1, h2, h3⟩
  next hk =>
    refine ⟨?_, ?_, ?_⟩
    · show size s ≤ k
      omega
    · show n ≤ k
      omega
    · show true = true ↔ n < k
      simp only [true_iff]
      omega

theorem wf_shrink {n : Nat} (s : SmallString n) (h : WF s) :
    WF (shrink_to_fit s) := by
  obtain ⟨h1, h2, h3⟩ := h
  unfold shrink_to_fit
  split
  next hk =>
    refine ⟨hk, Nat.le_refl n, ?_⟩
    simp
  next hk =>
    split
    next => exact ⟨h1, h2, h3⟩
    next hkk =>
      have hheap : s.heap = true := h3.mpr (by omega)
      refine ⟨Nat.le_refl _, by show n ≤ size s; omega, ?_⟩
      rw [hheap]
      simp only [true_iff]
      omega

theorem wf_op_assign {n : Nat} (s : SmallString n) (sv : List Char) (h : WF s) :
    WF (op_assign s sv) := by
  obtain ⟨h1, h2, h3⟩ := h
  unfold op_assign
  split
  next hk => exact ⟨by show sv.length ≤ s.cap; omega, h2, h3⟩
  next hk =>
    refine ⟨Nat.le_refl _, by show n ≤ sv.length; omega, ?_⟩
    simp only [true_iff]
    omega

theorem wf_rao {n : Nat} (s : SmallString n) (t : Nat) (junk : List Char)
    (f : List Char → Nat → Nat × List Char) (h : WF s) :
    WF (resize_and_overwrite s t junk f) := by
  obtain ⟨g1, g2, g3⟩ := wf_resizeU s t junk h
  show WF (resizeU (withContent (resizeU s t junk)
    (writeBack (resizeU s t junk).content (f (resizeU s t junk).content t).2))
    ((f (resizeU s t junk).content t).1) junk)
  apply wf_resizeU
  refine ⟨?_, g2, g3⟩
  show (writeBack (resizeU s t junk).content
    (f (resizeU s t junk).content t).2).length ≤ (resizeU s t junk).cap
  rw [writeBack_length]
  exact g1

theorem wf_step {n : Nat} (op : Op n) (s : SmallString n) (h : WF s) :
    WF (step op s) := by
  cases op with
  | pushB c => exact wf_push_back s c h
  | app str => exact wf_insertAt s (size s) str h
  | ins pos str => exact wf_insertAt s pos str h
  | popB => exact wf_pop_back s h
  | clr => exact wf_clear s h
  | rsz k c => exact wf_resize s k c h
  | rszZ k => exact wf_resize s k (Char.ofNat 0) h
  | rsv k => exact wf_reserve s k h
  | shr => exact wf_shrink s h
  | asg str => exact wf_op_assign s str h
  | rao t junk f => exact wf_rao s t junk f h

theorem wf_run {n : Nat} (ops : List (Op n)) (s : SmallString n) (h : WF s) :
    WF (runOps ops s) := by
  induction ops generalizing s with
  | nil => exact h
  | cons op rest ih =>
    show WF (runOps rest (step op s))
    exact ih (step op s) (wf_step op s h)

theorem inline_cap {n : Nat} (s : SmallString n) (h : WF s)
    (hh : s.heap = false) : s.cap = n := by
  obtain ⟨h1, h2, h3⟩ := h
  have hn : ¬ n < s.cap := fun hlt => by simp [h3.mpr hlt] at hh
  omega

theorem ensure_promote {n : Nat} (s : SmallString n) (needed : Nat)
    (hh : s.heap = false) (hgt : s.cap < needed) :
    (ensure s needed).heap = true ∧
      (ensure s needed).promotions = s.promotions + 1 := by
  unfold ensure bumpTo
  rw [if_neg (by omega)]
  exact ⟨rfl, by simp [hh]⟩

theorem resizeU_promote {n : Nat} (s : SmallString n) (k : Nat)
    (junk : List Char) (hh : s.heap = false) (hsz : size s ≤ s.cap)
    (hgt : s.cap < k) :
    (resizeU s k junk).heap = true ∧
      (resizeU s k junk).promotions = s.promotions + 1 := by
  unfold resizeU
  rw [if_neg (by omega)]
  exact ensure_promote s k hh hgt

theorem rao_fields {n : Nat} (s : SmallString n) (t : Nat) (junk : List Char)
    (f : List Char → Nat → Nat × List Char) (h1 : t ≤ s.cap)
    (h2 : (f (resizeU s t junk).content t).1 ≤ s.cap) :
    (resize_and_overwrite s t junk f).cap = s.cap ∧
      (resize_and_overwrite s t junk f).heap = s.heap ∧
      (resize_and_overwrite s t junk f).allocs = s.allocs ∧
      (resize_and_overwrite s t junk f).promotions = s.promotions := by
  obtain ⟨e1, e2, e3, e4⟩ := resizeU_of_le s t junk h1
  obtain ⟨g1, g2, g3, g4⟩ :=
    resizeU_of_le
      (withContent (resizeU s t junk)
        (writeBack (resizeU s t junk).content (f (resizeU s t junk).content t).2))
      (f (resizeU s t junk).content t).1 junk
      (by show (f (resizeU s t junk).content t).1 ≤ (resizeU s t junk).cap; omega)
  exact ⟨g1.trans e1, g2.trans e2, g3.trans e3, g4.trans e4⟩

theorem step_inline {n : Nat} (op : Op n) (s : SmallString n) (h : WF s)
    (hh : s.heap = false) (hd : demand op s ≤ n) :
    (step op s).heap = false ∧ (step op s).allocs = s.allocs ∧
      (step op s).promotions = s.promotions := by
  have hcap := inline_cap s h hh
  obtain ⟨h1, h2, h3⟩ := h
  cases op with
  | pushB c =>
    simp only [demand] at hd
    simp only [step, push_back]
    rw [ensure_of_le s _ (show size s + 1 ≤ s.cap by omega)]
    exact ⟨hh, rfl, rfl⟩
  | app str =>
    simp only [demand] at hd
    simp only [step, append, insertAt]
    rw [ensure_of_le s _ (show size s + str.length ≤ s.cap by omega)]
    exact ⟨hh, rfl, rfl⟩
  | ins pos str =>
    simp only [demand] at hd
    simp only [step, insertAt]
    rw [ensure_of_le s _ (show size s + str.length ≤ s.cap by omega)]
    exact ⟨hh, rfl, rfl⟩
  | popB => exact ⟨hh, rfl, rfl⟩
  | clr => exact ⟨hh, rfl, rfl⟩
  | rsz k c =>
    simp only [demand] at hd
    simp only [step, resize]
    split
    · exact ⟨hh, rfl, rfl⟩
    · rw [ensure_of_le s _ (show k ≤ s.cap by omega)]
      exact ⟨hh, rfl, rfl⟩
  | rszZ k =>
    simp only [demand] at hd
    simp only [step, resizeZ, resize]
    split
    · exact ⟨hh, rfl, rfl⟩
    · rw [ensure_of_le s _ (show k ≤ s.cap by omega)]
      exact ⟨hh, rfl, rfl⟩
  | rsv k =>
    simp only [demand] at hd
    simp only [step, reserve]
    rw [if_pos (show k ≤ s.cap by omega)]
    exact ⟨hh, rfl, rfl⟩
  | shr =>
    simp only [step, shrink_to_fit]
    rw [if_pos (show size s ≤ n by omega)]
    exact ⟨rfl, rfl, rfl⟩
  | asg str =>
    simp only [demand] at hd
    simp only [step, op_assign]
    rw [if_pos (show str.length ≤ n by omega)]
    exact ⟨hh, rfl, rfl⟩
  | rao t junk f =>
    simp only [demand, Nat.max_le] at hd
    obtain ⟨q1, q2, q3, q4⟩ := rao_fields s t junk f (by omega) (by omega)
    exact ⟨q2.trans hh, q3, q4⟩

theorem step_promote {n : Nat} (op : Op n) (s : SmallString n) (h : WF s)
    (hh : s.heap = false) (hd : n < demand op s) :
    (step op s).heap = true ∧
      (step op s).promotions = s.promotions + 1 := by
  have hcap := inline_cap s h hh
  obtain ⟨h1, h2, h3⟩ := h
  cases op with
  | pushB c =>
    simp only [demand] at hd
    simp only [step, push_back]
    exact ensure_promote s _ hh (by omega)
  | app str =>
    simp only [demand] at hd
    simp only [step, append, insertAt]
    exact ensure_promote s _ hh (by omega)
  | ins pos str =>
    simp only [demand] at hd
    simp only [step, insertAt]
    exact ensure_promote s _ hh (by omega)
  | popB =>
    simp only [demand] at hd
    exact absurd hd (Nat.not_lt_zero n)
  | clr =>
    simp only [demand] at hd
    exact absurd hd (Nat.not_lt_zero n)
  | rsz k c =>
    simp only [demand] at hd
    simp only [step, resize]
    rw [if_neg (show ¬ k ≤ size s by omega)]
    exact ensure_promote s _ hh (by omega)
  | rszZ k =>
    simp only [demand] at hd
    simp only [step, resizeZ, resize]
    rw [if_neg (show ¬ k ≤ size s by omega)]
    exact ensure_promote s _ hh (by omega)
  | rsv k =>
    simp only [demand] at hd
    simp only [step, reserve, bumpTo]
    rw [if_neg (show ¬ k ≤ s.cap by omega)]
    exact ⟨rfl, by simp [hh]⟩
  | shr =>
    simp only [demand] at hd
    exact absurd hd (Nat.not_lt_zero n)
  | asg str =>
    simp only [demand] at hd
    simp only [step, op_assign]
    rw [if_neg (show ¬ str.length ≤ n by omega)]
    exact ⟨rfl, by simp [hh]⟩
  | rao t junk f =>
    simp only [demand, lt_max_iff] at hd
    by_cases hn : n < t
    · obtain ⟨p1, p2⟩ := resizeU_promote s t junk hh h1 (by omega)
      obtain ⟨q1, q2⟩ :=
        resizeU_heap_of_heap
          (withContent (resizeU s t junk)
            (writeBack (resizeU s t junk).content
              (f (resizeU s t junk).content t).2))
          (f (resizeU s t junk).content t).1 junk p1
      exact ⟨q1, q2.trans p2⟩
    · obtain ⟨e1, e2, e3, e4⟩ := resizeU_of_le s t junk (by omega)
      have hr : n < (f (resizeU s t junk).content t).1 := hd.resolve_left hn
      obtain ⟨p1, p2⟩ :=
        resizeU_promote
          (withContent (resizeU s t junk)
            (writeBack (resizeU s t junk).content
              (f (resizeU s t junk).content t).2))
          (f (resizeU s t junk).content t).1 junk
          (e2.trans hh)
          (by
            show (writeBack (resizeU s t junk).content
              (f (resizeU s t junk).content t).2).length ≤ (resizeU s t junk).cap
            rw [writeBack_length]
            have hs := resizeU_size s t junk
            simp only [size] at hs
            omega)
          (by show (resizeU s t junk).cap < (f (resizeU s t junk).content t).1; omega)
      exact ⟨p1, p2.trans (congrArg (fun z => z + 1) e4)⟩

theorem run_inline {n : Nat} (ops : List (Op n)) (s : SmallString n) (h : WF s)
    (hh : s.heap = false) (hok : okOps ops s = true) :
    (runOps ops s).heap = false ∧ (runOps ops s).allocs = s.allocs ∧
      (runOps ops s).promotions = s.promotions := by
  induction ops generalizing s with
  | nil => exact ⟨hh, rfl, rfl⟩
  | cons op rest ih =>
    simp only [okOps, Bool.and_eq_true, decide_eq_true_eq] at hok
    obtain ⟨hd, hrest⟩ := hok
    obtain ⟨p1, p2, p3⟩ := step_inline op s h hh hd
    obtain ⟨q1, q2, q3⟩ := ih (step op s) (wf_step op s h) p1 hrest
    refine ⟨q1, ?_, ?_⟩
    · show (runOps rest (step op s)).allocs = s.allocs
      rw [q2, p2]
    · show (runOps rest (step op s)).promotions = s.promotions
      rw [q3, p3]

theorem append_content {n : Nat} (s : SmallString n) (str : List Char) :
    (append s str).content = s.content ++ str := by
  simp only [append, insertAt, ensure_content]
  simp only [size, List.take_length, List.drop_length, List.append_nil]

/-- C1: constructing a `SmallString<N>` from any byte sequence `S` and reading
it back through the conversion to a byte view yields exactly `S` — the same
length and the same bytes in the same order — for every `S`, in particular the
empty sequence and sequences of length `N-1`, `N` and `N+1`. -/
theorem smallstring_C1 (n : Nat) (sv : List Char) :
    toStringView (ofStringView n sv) = sv ∧
      size (ofStringView n sv) = sv.length := by
  unfold ofStringView toStringView size
  split <;> exact ⟨rfl, rfl⟩

/-- C2 counterexample: on a `SmallString<4>` built from `"ab"`, checked access
at the two distinct out-of-range indices 5 and 7 produces identical errors,
both equal to the constant `outOfRange "at"` (the source throws
`std::out_of_range("at")`); the error therefore cannot carry the offending
index, refuting that part of the claim at these concrete inputs. -/
theorem smallstring_C2_counterexample :
    atIdx (ofStringView 4 ['a', 'b']) 5 = atIdx (ofStringView 4 ['a', 'b']) 7 ∧
      atIdx (ofStringView 4 ['a', 'b']) 5 =
        Except.error (SSError.outOfRange "at") :=
  ⟨rfl, rfl⟩

/-- C2 (amended): for every buffer of length `L` and every index `pos`,
`at(pos)` with `pos ≥ L` fails with the `OutOfRange` error — which carries
only the fixed message `"at"`, not the offending index — and `at(pos)` with
`pos < L` succeeds and returns exactly the byte stored at position `pos`;
this holds for every length `L`. -/
theorem smallstring_C2 (n : Nat) (s : SmallString n) (pos : Nat) :
    (size s ≤ pos → atIdx s pos = Except.error (SSError.outOfRange "at")) ∧
      (∀ hlt : pos < size s,
        atIdx s pos = Except.ok (s.content.get ⟨pos, hlt⟩)) := by
  constructor
  · intro hge
    unfold atIdx
    rw [if_pos hge]
  · intro hlt
    unfold atIdx
    rw [if_neg (by omega)]
    congr 1
    rw [List.getD_eq_getElem?_getD, List.getElem?_eq_getElem hlt]
    rfl

/-- C2 witness: the amended theorem at concrete inputs — on the buffer built
from `"ab"`, index 5 fails with `outOfRange "at"` and index 1 returns the
stored byte. -/
theorem smallstring_C2_witness :
    atIdx (ofStringView 4 ['a', 'b']) 5 =
        Except.error (SSError.outOfRange "at") ∧
      atIdx (ofStringView 4 ['a', 'b']) 1 = Except.ok 'b' :=
  ⟨(smallstring_C2 4 (ofStringView 4 ['a', 'b']) 5).1 (by decide),
   (smallstring_C2 4 (ofStringView 4 ['a', 'b']) 1).2 (by decide)⟩

/-- C3 counterexample: on `SmallString<16>`, the single operation
`reserve(100)` keeps the length at 0 throughout — so the length never exceeds
16 at any point of the sequence — yet storage ends heap-allocated with one
heap allocation performed; the claim that storage stays inline and no heap
allocation occurs whenever the length never exceeds `N` is false for this
sequence. -/
theorem smallstring_C3_counterexample :
    (runOps [Op.rsv 100] (mkEmpty 16)).heap = true ∧
      (runOps [Op.rsv 100] (mkEmpty 16)).allocs = 1 ∧
      size (runOps [Op.rsv 100] (mkEmpty 16)) = 0 ∧
      size (mkEmpty 16) = 0 :=
  ⟨rfl, rfl, rfl, rfl⟩

/-- C3 (amended): for every well-formed inline `SmallString<N>` and every
sequence of operations each of which demands at most `N` bytes of storage (so
in particular the length never exceeds `N`; explicit `reserve` /
`resize` / `resize_and_overwrite` requests beyond `N` are what the original
claim overlooks), storage stays inline and no heap allocation and no
promotion occurs; and the first operation whose storage demand exceeds `N`
leaves storage heap-allocated, performing exactly one inline-to-heap
promotion. -/
theorem smallstring_C3 (n : Nat) :
    (∀ (s : SmallString n) (ops : List (Op n)), WF s → s.heap = false →
      okOps ops s = true →
      (runOps ops s).heap = false ∧ (runOps ops s).allocs = s.allocs ∧
        (runOps ops s).promotions = s.promotions) ∧
    (∀ (s : SmallString n) (op : Op n), WF s → s.heap = false →
      n < demand op s →
      (step op s).heap = true ∧
        (step op s).promotions = s.promotions + 1) :=
  ⟨fun s ops h hh hok => run_inline ops s h hh hok,
   fun s op h hh hd => step_promote op s h hh hd⟩

/-- C3 witness: appending two bytes to an empty `SmallString<4>` stays inline
with no allocation and no promotion, while appending five bytes to it
promotes to heap storage with exactly one promotion. -/
theorem smallstring_C3_witness :
    ((runOps [Op.app ['h', 'i']] (mkEmpty 4)).heap = false ∧
      (runOps [Op.app ['h', 'i']] (mkEmpty 4)).allocs = (mkEmpty 4).allocs ∧
      (runOps [Op.app ['h', 'i']] (mkEmpty 4)).promotions =
        (mkEmpty 4).promotions) ∧
    ((step (Op.app ['h', 'e', 'l', 'l', 'o']) (mkEmpty 4)).heap = true ∧
      (step (Op.app ['h', 'e', 'l', 'l', 'o']) (mkEmpty 4)).promotions =
        (mkEmpty 4).promotions + 1) :=
  ⟨(smallstring_C3 4).1 (mkEmpty 4) [Op.app ['h', 'i']] (by decide) rfl
      (by decide),
   (smallstring_C3 4).2 (mkEmpty 4) (Op.app ['h', 'e', 'l', 'l', 'o'])
      (by decide) rfl (by decide)⟩

/-- C4: two buffers, or a buffer and a raw byte view, compare equal iff their
logical byte sequences are identical (same length and same bytes), regardless
of storage mode — the comparison reads only the byte view; and equal buffers
hash equally, the hash being computed from the logical byte content only. -/
theorem smallstring_C4 (n : Nat) (s1 s2 : SmallString n) (sv : List Char) :
    (beqSS s1 s2 = true ↔ toStringView s1 = toStringView s2) ∧
      (beqSV s1 sv = true ↔ toStringView s1 = sv) ∧
      (beqVS sv s1 = true ↔ toStringView s1 = sv) ∧
      (beqSS s1 s2 = true → hashSS s1 = hashSS s2) := by
  refine ⟨?_, ?_, ?_, ?_⟩
  · unfold beqSS
    exact beq_iff_eq
  · unfold beqSV
    exact beq_iff_eq
  · unfold beqVS
    exact beq_iff_eq
  · intro hbe
    unfold beqSS at hbe
    unfold hashSS
    rw [beq_iff_eq.mp hbe]

/-- C4 witness: an inline buffer and a heap-promoted buffer (after
`reserve(9)`) with the same bytes hash equally. -/
theorem smallstring_C4_witness :
    hashSS (ofStringView 4 ['a', 'b']) =
      hashSS (reserve (ofStringView 4 ['a', 'b']) 9) :=
  (smallstring_C4 4 (ofStringView 4 ['a', 'b'])
    (reserve (ofStringView 4 ['a', 'b']) 9) []).2.2.2 (by decide)

/-- C5: `append(s)` leaves the buffer holding exactly the old content followed
by `s`, the new length is the sum of the lengths, and when the new length
exceeds the old capacity storage has been grown to at least the new length;
`operator+=` forwards to `append`. -/
theorem smallstring_C5 (n : Nat) (s : SmallString n) (str : List Char) :
    (append s str).content = s.content ++ str ∧
      size (append s str) = size s + str.length ∧
      (s.cap < size s + str.length →
        size s + str.length ≤ (append s str).cap) ∧
      op_pluseq s str = append s str := by
  refine ⟨append_content s str, ?_, ?_, rfl⟩
  · show (append s str).content.length = s.content.length + str.length
    rw [append_content s str]
    simp
  · intro hlt
    show size s + str.length ≤ (ensure s (size s + str.length)).cap
    exact le_ensure_cap s _

/-- C5 witness: appending three bytes to an empty `SmallString<2>` (capacity
2 < new length 3) yields a capacity of at least 3. -/
theorem smallstring_C5_witness :
    3 ≤ (append (mkEmpty 2) ['a', 'b', 'c']).cap :=
  (smallstring_C5 2 (mkEmpty 2) ['a', 'b', 'c']).2.2.1 (by decide)

/-- C6: `resize(k, fill)` appends `k − L` copies of `fill` when `k > L`
(keeping the first `L` bytes unchanged), truncates to the first `k` bytes when
`k < L`, changes nothing when `k = L`, and the one-argument `resize` fills
with the zero byte. -/
theorem smallstring_C6 (n : Nat) (s : SmallString n) (k : Nat) (c : Char) :
    (size s < k →
      (resize s k c).content = s.content ++ List.replicate (k - size s) c) ∧
      (k < size s → (resize s k c).content = s.content.take k) ∧
      (k = size s → resize s k c = s) ∧
      resizeZ s k = resize s k (Char.ofNat 0) := by
  refine ⟨?_, ?_, ?_, rfl⟩
  · intro hlt
    unfold resize
    rw [if_neg (by omega)]
    show (ensure s k).content ++ List.replicate (k - size s) c = _
    rw [ensure_content]
  · intro hlt
    unfold resize
    rw [if_pos (by omega)]
  · intro heq
    subst heq
    unfold resize
    rw [if_pos (Nat.le_refl (size s))]
    show { s with content := s.content.take (size s) } = s
    rw [show s.content.take (size s) = s.content from by simp [size]]

/-- C6 witness: on the buffer `"ab"` (length 2), `resize(4, 'x')` appends two
fill bytes, `resize(1, 'x')` truncates to the first byte, and
`resize(2, 'x')` changes nothing. -/
theorem smallstring_C6_witness :
    (resize (ofStringView 4 ['a', 'b']) 4 'x').content =
        ['a', 'b'] ++ List.replicate 2 'x' ∧
      (resize (ofStringView 4 ['a', 'b']) 1 'x').content =
        (['a', 'b'] : List Char).take 1 ∧
      resize (ofStringView 4 ['a', 'b']) 2 'x' = ofStringView 4 ['a', 'b'] :=
  ⟨(smallstring_C6 4 (ofStringView 4 ['a', 'b']) 4 'x').1 (by decide),
   (smallstring_C6 4 (ofStringView 4 ['a', 'b']) 1 'x').2.1 (by decide),
   (smallstring_C6 4 (ofStringView 4 ['a', 'b']) 2 'x').2.2.1 (by decide)⟩

/-- C7: `resize_and_overwrite(t, op)` first ensures the buffer can hold `t`
bytes without giving the newly exposed bytes any fixed value (the statement
holds for every valuation `junk` of those bytes), invokes the operation with
the raw buffer and `t`, and finally sets the buffer's length to the value `r`
returned by the operation (`r ≤ t`), the content being the first `r` bytes
the operation wrote. -/
theorem smallstring_C7 (n t : Nat) (s : SmallString n) (junk : List Char)
    (f : List Char → Nat → Nat × List Char) (hwf : WF s)
    (hlen : (f (resizeU s t junk).content t).2.length = t)
    (hr : (f (resizeU s t junk).content t).1 ≤ t) :
    t ≤ (resizeU s t junk).cap ∧
      size (resizeU s t junk) = t ∧
      (resize_and_overwrite s t junk f).content =
        (f (resizeU s t junk).content t).2.take
          ((f (resizeU s t junk).content t).1) ∧
      size (resize_and_overwrite s t junk f) =
        (f (resizeU s t junk).content t).1 := by
  have hs1 : (resizeU s t junk).content.length = t := by
    have hq := resizeU_size s t junk
    simpa [size] using hq
  have hwb : writeBack (resizeU s t junk).content
      (f (resizeU s t junk).content t).2 = (f (resizeU s t junk).content t).2 :=
    writeBack_of_length _ _ (by rw [hlen, hs1])
  have hcontent : (resize_and_overwrite s t junk f).content =
      (f (resizeU s t junk).content t).2.take
        ((f (resizeU s t junk).content t).1) := by
    show (resizeU (withContent (resizeU s t junk)
      (writeBack (resizeU s t junk).content (f (resizeU s t junk).content t).2))
      ((f (resizeU s t junk).content t).1) junk).content = _
    rw [hwb]
    rw [resizeU_content_of_le
      (withContent (resizeU s t junk) (f (resizeU s t junk).content t).2)
      ((f (resizeU s t junk).content t).1) junk
      (by
        show (f (resizeU s t junk).content t).1 ≤
          (f (resizeU s t junk).content t).2.length
        omega)]
    rfl
  refine ⟨le_resizeU_cap s t junk hwf.1, resizeU_size s t junk, hcontent, ?_⟩
  show (resize_and_overwrite s t junk f).content.length = _
  rw [hcontent]
  simp
  omega

/-- C7 witness: on an empty `SmallString<4>` with `t = 3` and an operation
that writes `"xyz"` and returns 2, the buffer ends with content `"xy"` and
length 2, the intermediate buffer having held 3 bytes. -/
theorem smallstring_C7_witness :
    3 ≤ (resizeU (mkEmpty 4) 3 ['u', 'v', 'w']).cap ∧
      size (resizeU (mkEmpty 4) 3 ['u', 'v', 'w']) = 3 ∧
      (resize_and_overwrite (mkEmpty 4) 3 ['u', 'v', 'w']
          (fun _ _ => (2, ['x', 'y', 'z']))).content = ['x', 'y'] ∧
      size (resize_and_overwrite (mkEmpty 4) 3 ['u', 'v', 'w']
          (fun _ _ => (2, ['x', 'y', 'z']))) = 2 :=
  smallstring_C7 4 3 (mkEmpty 4) ['u', 'v', 'w']
    (fun _ _ => (2, ['x', 'y', 'z'])) (by decide) (by decide) (by decide)

/-- C8: `shrink_to_fit` never loses data — the stored content, hence the
length, is exactly what it was before the call — and reduces the capacity to
`max(length, N)`, which is the minimum capacity any well-formed
`SmallString<N>` holding that content can have (the permanent inline buffer
keeps capacity at least `N`). -/
theorem smallstring_C8 (n : Nat) (s : SmallString n) :
    (shrink_to_fit s).content = s.content ∧
      (shrink_to_fit s).cap = max (size s) n ∧
      (WF s → max (size s) n ≤ s.cap) := by
  refine ⟨?_, ?_, ?_⟩
  · unfold shrink_to_fit
    split
    · rfl
    · split
      · rfl
      · rfl
  · unfold shrink_to_fit
    split
    next hk =>
      show n = max (size s) n
      omega
    next hk =>
      split
      next hkk =>
        show s.cap = max (size s) n
        omega
      next hkk =>
        show size s = max (size s) n
        omega
  · intro hwf
    obtain ⟨h1, h2, _⟩ := hwf
    omega

/-- C8 witness: on the buffer `"ab"` in `SmallString<4>`, `max(length, N)` is
indeed a lower bound of the capacity. -/
theorem smallstring_C8_witness :
    max (size (ofStringView 4 ['a', 'b'])) 4 ≤ (ofStringView 4 ['a', 'b']).cap :=
  (smallstring_C8 4 (ofStringView 4 ['a', 'b'])).2.2 (by decide)

/-- C9: starting from any well-formed state, after any sequence of operations
the reported capacity is at least `N` — the inline buffer sets a permanent
floor — and `shrink_to_fit` on a buffer whose length is below `N` leaves the
capacity equal to `N`, not to the length. -/
theorem smallstring_C9 (n : Nat) (s : SmallString n) (ops : List (Op n))
    (h : WF s) :
    n ≤ (runOps ops s).cap ∧
      (size (runOps ops s) < n →
        (shrink_to_fit (runOps ops s)).cap = n) := by
  have hw := wf_run ops s h
  refine ⟨hw.2.1, ?_⟩
  intro hlt
  unfold shrink_to_fit
  rw [if_pos (by omega)]

/-- C9 witness: the empty `SmallString<4>` reports capacity at least 4, and
`shrink_to_fit` with length 0 < 4 leaves the capacity at exactly 4. -/
theorem smallstring_C9_witness :
    4 ≤ (runOps ([] : List (Op 4)) (mkEmpty 4)).cap ∧
      (shrink_to_fit (runOps ([] : List (Op 4)) (mkEmpty 4))).cap = 4 :=
  ⟨(smallstring_C9 4 (mkEmpty 4) [] (by decide)).1,
   (smallstring_C9 4 (mkEmpty 4) [] (by decide)).2 (by decide)⟩

/-- C10: assignment from a byte view fully replaces the previous content,
whatever it was: afterwards the logical content is exactly the view's bytes
and the length is the view's length (the C++ operator returns `*this`, i.e.
the very object whose state is the returned state here). -/
theorem smallstring_C10 (n : Nat) (s : SmallString n) (sv : List Char) :
    (op_assign s sv).content = sv ∧ size (op_assign s sv) = sv.length := by
  unfold op_assign
  split <;> exact ⟨rfl, rfl⟩

end SmallStr
